import Mathlib

/-!
Shallow embedding of the KRPC wire-protocol codec of rust-dht
(`src/utils.rs` and `src/bt/protocol.rs`), together with proofs of the
specification's claims about it.

Modelling conventions:
* machine bytes (`u8`), ports (`u16`) and arbitrary-precision ids
  (`num::BigUint`) are `Nat`; where the Rust code truncates with a cast we
  take `% 256` explicitly, and `u8`/`u16` typing of inputs becomes a
  `< 256` / `< 2 ^ 16` hypothesis;
* a Rust `panic!` / failed `assert!` is modelled as `Option.none`, so every
  fallible operation returns an `Option`;
* the bencode `DictMap` (an ordered `TreeMap` with byte-string keys) is an
  association list kept sorted by the lexicographic order on keys, with
  insertion replacing an existing binding, exactly as `TreeMap::insert` does;
* `String` keys are represented by their byte sequences (`List Nat`).
-/

namespace RustDht

/-- `std::net::SocketAddr`: an IPv4 address (four octets) with a port, or an
IPv6 address (modelled as its raw segment list) with a port. -/
inductive SocketAddr where
  | v4 (a b c d : Nat) (port : Nat)
  | v6 (segments : List Nat) (port : Nat)
  deriving DecidableEq

/-- `base::Node`: a 160-bit identifier together with a socket address. -/
structure Node where
  id : Nat
  address : SocketAddr
  deriving DecidableEq

/-- `utils::netaddr_to_netbytes`: the four IPv4 octets in order followed by
the big-endian port (`(port >> 8) as u8` then `(port & 0xFF) as u8`).
The `V6` arm of the Rust `match` is `panic!("IPv6 not implemented")`,
modelled as `none`. -/
def netaddr_to_netbytes : SocketAddr → Option (List Nat)
  | .v4 a b c d port => some [a, b, c, d, port / 256 % 256, port % 256]
  | .v6 _ _ => none

/-- `utils::netaddr_from_netbytes`: `assert_eq!(6, bytes.len())` (modelled as
`none` on failure), then rebuild the IPv4 address and the port
`((bytes[4] as u16) << 8) + bytes[5] as u16`. -/
def netaddr_from_netbytes (bytes : List Nat) : Option SocketAddr :=
  if h : bytes.length = 6 then
    some (.v4 (bytes.get ⟨0, by omega⟩) (bytes.get ⟨1, by omega⟩)
      (bytes.get ⟨2, by omega⟩) (bytes.get ⟨3, by omega⟩)
      (bytes.get ⟨4, by omega⟩ * 256 + bytes.get ⟨5, by omega⟩))
  else none

/-- `protocol::ID_BYTE_SIZE`. -/
def ID_BYTE_SIZE : Nat := 20

/-- `num::BigUint::bits()`: number of bits needed to represent the value
(`0` for zero). -/
def bits (n : Nat) : Nat := if n = 0 then 0 else Nat.log2 n + 1

/-- The loop of `protocol::id_to_netbytes`: fill `n` byte slots from the last
one to the first, each time storing `id_c & 0xFF` and shifting `id_c` right
by 8, so the slots end up holding the big-endian base-256 digits. -/
def idBytesLoop : Nat → Nat → List Nat
  | _, 0 => []
  | idc, n + 1 => idBytesLoop (idc / 256) n ++ [idc % 256]

/-- `protocol::id_to_netbytes`: `assert!(id.bits() <= ID_BYTE_SIZE * 8)`
(modelled as `none` on failure), then the masking/shifting loop over a
20-slot zero vector. -/
def id_to_netbytes (id : Nat) : Option (List Nat) :=
  if bits id ≤ ID_BYTE_SIZE * 8 then some (idBytesLoop id ID_BYTE_SIZE) else none

/-- The loop of `protocol::id_from_netbytes`: iterate over the bytes in
reverse, adding `byte << shift` with the shift growing by 8 each step. -/
def idFromLoop : List Nat → Nat → Nat → Nat
  | [], result, _ => result
  | b :: rest, result, shift => idFromLoop rest (result + b * 2 ^ shift) (shift + 8)

/-- `protocol::id_from_netbytes`. -/
def id_from_netbytes (bytes : List Nat) : Nat :=
  idFromLoop bytes.reverse 0 0

/-- The generic bencode value model (`bencode::Bencode`), restricted to the
variants this codec produces and consumes. Dictionaries are sorted
association lists over byte-string keys. -/
inductive Bencode where
  | byteString (v : List Nat)
  | number (n : Int)
  | list (l : List Bencode)
  | dict (d : List (List Nat × Bencode))

/-- Lexicographic strict order on byte strings, the `Ord` used by the
bencode `DictMap` keys. -/
def byteListLt : List Nat → List Nat → Bool
  | [], [] => false
  | [], _ :: _ => true
  | _ :: _, [] => false
  | a :: as, b :: bs => if a < b then true else if b < a then false else byteListLt as bs

/-- `TreeMap::insert` on the sorted association list: replace an existing
binding for the key, otherwise insert at the sorted position. -/
def dictInsert (k : List Nat) (v : Bencode) :
    List (List Nat × Bencode) → List (List Nat × Bencode)
  | [] => [(k, v)]
  | (k2, v2) :: rest =>
    if k = k2 then (k, v) :: rest
    else if byteListLt k k2 then (k, v) :: (k2, v2) :: rest
    else (k2, v2) :: dictInsert k v rest

/-- Map lookup on the association list. -/
def dictLookup (k : List Nat) : List (List Nat × Bencode) → Option Bencode
  | [] => none
  | (k2, v) :: rest => if k = k2 then some v else dictLookup k rest

/-- Map removal on the association list (removes the binding of `k`). -/
def dictErase (k : List Nat) :
    List (List Nat × Bencode) → List (List Nat × Bencode)
  | [] => []
  | (k2, v) :: rest => if k = k2 then rest else (k2, v) :: dictErase k rest

/-- `impl ToBencode for base::Node`: the 20 identifier bytes followed by the
6 address bytes, as one byte string. -/
def nodeToBencode (n : Node) : Option Bencode :=
  match id_to_netbytes n.id with
  | some idb =>
    match netaddr_to_netbytes n.address with
    | some ab => some (.byteString (idb ++ ab))
    | none => none
  | none => none

/-- `impl FromBencode for base::Node`: match a byte string of length exactly
26, split it 20/6; every other value falls to the `_ => None` arm. -/
def nodeFromBencode : Bencode → Option Node
  | .byteString v =>
    if v.length = 26 then
      match netaddr_from_netbytes (v.drop 20) with
      | some addr => some { id := id_from_netbytes (v.take 20), address := addr }
      | none => none
    else none
  | _ => none

/-- `protocol::PayloadDict` (`TreeMap<String, Vec<u8>>`), keys as byte
sequences. -/
abbrev PayloadDict := List (List Nat × List Nat)

/-- `protocol::Payload`: Query, Response, or Error (code and message). -/
inductive Payload where
  | query (d : PayloadDict)
  | response (d : PayloadDict)
  | error (code : Int) (msg : List Nat)

/-- `protocol::Package`. -/
structure Package where
  transaction_id : List Nat
  payload : Payload
  sender : Node

/-- The byte-string keys used by the codec. `keyTT` is the two-byte key
`"tt"` the encoder actually writes the transaction id under; `keyT` is the
single-byte key `"t"` of the KRPC wire format. -/
def keyT : List Nat := [116]

/-- The key `"tt"` (`0x74 0x74`). -/
def keyTT : List Nat := [116, 116]

/-- The key `"y"`. -/
def keyY : List Nat := [121]

/-- The key and type tag `"q"`. -/
def keyQ : List Nat := [113]

/-- The key and type tag `"r"`. -/
def keyR : List Nat := [114]

/-- The key and type tag `"e"`. -/
def keyE : List Nat := [101]

/-- The reserved payload key `"id"` (`0x69 0x64`). -/
def keyId : List Nat := [105, 100]

/-- `Package::payload_dict_to_bencode`: collect the caller's field map into
a bencode dictionary (values as byte strings), then insert the sender's
compact encoding under `"id"`, replacing any existing binding. -/
def payload_dict_to_bencode (sender : Node) (d : PayloadDict) : Option Bencode :=
  match nodeToBencode sender with
  | some nb =>
    some (.dict (dictInsert keyId nb
      (d.foldl (fun m kv => dictInsert kv.1 (.byteString kv.2) m) [])))
  | none => none

/-- `impl ToBencode for Package`: insert the transaction id under `"tt"`,
pick the type tag and payload by variant, insert the tag under `"y"` and the
payload under the tag key. -/
def packageToBencode (p : Package) : Option Bencode :=
  let withTid := dictInsert keyTT (.byteString p.transaction_id)
    ([] : List (List Nat × Bencode))
  match (match p.payload with
    | .query d => (payload_dict_to_bencode p.sender d).map (fun pl => (keyQ, pl))
    | .response d => (payload_dict_to_bencode p.sender d).map (fun pl => (keyR, pl))
    | .error code s => some (keyE, .list [.number code, .byteString s])) with
  | some (typ, payload) =>
    some (.dict (dictInsert typ payload (dictInsert keyY (.byteString typ) withTid)))
  | none => none

/-- Modelled from the spec: helper for Package decode (absent from `src/`).
Reads a decoded payload dictionary back into a `PayloadDict`, requiring
every remaining value to be a byte string (the `Vec<u8>` value type of
`PayloadDict`); anything else is a malformed message. -/
def payloadFieldsFromBencode : List (List Nat × Bencode) → Option PayloadDict
  | [] => some []
  | (k, .byteString v) :: rest =>
    (payloadFieldsFromBencode rest).map (fun r => (k, v) :: r)
  | _ => none

/-- Modelled from the spec: the Query/Response payload step of Package
decode (absent from `src/`): find the nested dictionary under the type key,
pull out the `"id"` entry via the node decoder (failure is a malformed
message), remove it from the mapping, and expose the remainder as the
caller fields. -/
def payloadQRFromBencode (key : List Nat) (outer : List (List Nat × Bencode)) :
    Option PayloadDict :=
  match dictLookup key outer with
  | some (.dict inner) =>
    match dictLookup keyId inner with
    | some idv =>
      match nodeFromBencode idv with
      | some _ => payloadFieldsFromBencode (dictErase keyId inner)
      | none => none
    | none => none
  | _ => none

/-- Modelled from the spec: Package decode, the symmetric counterpart of
`packageToBencode` (absent from `src/`; spec § 4.3 "Decode"). Parse the top
level as a dictionary; extract the transaction id (a byte string, read from
the key the encoder writes it under); dispatch on the `"y"` type tag over
`"q"`, `"r"`, `"e"`; for `"q"`/`"r"` decode the payload dictionary, for
`"e"` require a two-element list of an integer and a byte string; every
other shape or tag yields no package. The result is the transaction id and
the payload (an Error package carries no sender node). -/
def packageFromBencode : Bencode → Option (List Nat × Payload)
  | .dict outer =>
    match dictLookup keyTT outer with
    | some (.byteString tid) =>
      match dictLookup keyY outer with
      | some (.byteString y) =>
        if y = keyQ then
          (payloadQRFromBencode keyQ outer).map (fun d => (tid, .query d))
        else if y = keyR then
          (payloadQRFromBencode keyR outer).map (fun d => (tid, .response d))
        else if y = keyE then
          match dictLookup keyE outer with
          | some (.list [.number code, .byteString msg]) =>
            some (tid, .error code msg)
          | _ => none
        else none
      | _ => none
    | _ => none
  | _ => none

/-! ### Helper lemmas about the byte-level arithmetic -/

theorem bits_le_iff (n k : Nat) : bits n ≤ k ↔ n < 2 ^ k := by
  unfold bits
  split
  · subst n
    simp only [Nat.zero_le, true_iff]
    exact Nat.two_pow_pos k
  · rename_i h
    rw [Nat.succ_le_iff]
    exact Nat.log2_lt h

theorem id_to_netbytes_eq (id : Nat) :
    id_to_netbytes id = if id < 2 ^ 160 then some (idBytesLoop id 20) else none := by
  unfold id_to_netbytes ID_BYTE_SIZE
  rw [show (20 * 8 : Nat) = 160 by norm_num]
  by_cases h : id < 2 ^ 160
  · rw [if_pos ((bits_le_iff id 160).mpr h), if_pos h]
  · rw [if_neg (fun hb => h ((bits_le_iff id 160).mp hb)), if_neg h]

def beVal (l : List Nat) : Nat := l.foldl (fun acc b => acc * 256 + b) 0

theorem idFromLoop_eq (l : List Nat) (r s : Nat) :
    idFromLoop l r s = r + (l.foldr (fun b acc => b + 256 * acc) 0) * 2 ^ s := by
  induction l generalizing r s with
  | nil => simp [idFromLoop]
  | cons b rest ih =>
    rw [idFromLoop, ih]
    simp only [List.foldr_cons]
    rw [pow_add]
    ring

theorem id_from_netbytes_eq (l : List Nat) : id_from_netbytes l = beVal l := by
  rw [id_from_netbytes, idFromLoop_eq, List.foldr_reverse, beVal]
  simp only [pow_zero, mul_one, zero_add]
  congr 1
  funext acc b
  ring

theorem beVal_append_singleton (l : List Nat) (b : Nat) :
    beVal (l ++ [b]) = beVal l * 256 + b := by
  simp [beVal, List.foldl_append]

theorem idBytesLoop_length (x n : Nat) : (idBytesLoop x n).length = n := by
  induction n generalizing x with
  | zero => rfl
  | succ n ih => simp [idBytesLoop, ih]

theorem idBytesLoop_mem_lt (x n : Nat) : ∀ b ∈ idBytesLoop x n, b < 256 := by
  induction n generalizing x with
  | zero => simp [idBytesLoop]
  | succ n ih =>
    intro b hb
    rw [idBytesLoop, List.mem_append] at hb
    rcases hb with hb | hb
    · exact ih _ b hb
    · simp only [List.mem_singleton] at hb
      subst hb
      exact Nat.mod_lt _ (by norm_num)

theorem beVal_idBytesLoop (x n : Nat) : beVal (idBytesLoop x n) = x % 256 ^ n := by
  induction n generalizing x with
  | zero => simp [idBytesLoop, beVal, Nat.mod_one]
  | succ n ih =>
    rw [idBytesLoop, beVal_append_singleton, ih]
    rw [pow_succ, mul_comm (256 ^ n) 256, Nat.mod_mul]
    ring

theorem beVal_idBytesLoop_of_lt (x n : Nat) (h : x < 256 ^ n) :
    beVal (idBytesLoop x n) = x := by
  rw [beVal_idBytesLoop, Nat.mod_eq_of_lt h]

theorem idBytesLoop_beVal (l : List Nat) (h : ∀ b ∈ l, b < 256) :
    idBytesLoop (beVal l) l.length = l := by
  induction l using List.reverseRecOn with
  | nil => rfl
  | append_singleton l b ih =>
    have hb : b < 256 := h b (by simp)
    rw [beVal_append_singleton, List.length_append, List.length_singleton,
      idBytesLoop]
    have h1 : (beVal l * 256 + b) / 256 = beVal l := by
      omega
    have h2 : (beVal l * 256 + b) % 256 = b := by
      omega
    rw [h1, h2, ih (fun c hc => h c (by simp [hc]))]

theorem beVal_lt (l : List Nat) (h : ∀ b ∈ l, b < 256) :
    beVal l < 256 ^ l.length := by
  induction l using List.reverseRecOn with
  | nil => simp [beVal]
  | append_singleton l b ih =>
    have hb : b < 256 := h b (by simp)
    have hl : beVal l < 256 ^ l.length := ih (fun c hc => h c (by simp [hc]))
    rw [beVal_append_singleton, List.length_append, List.length_singleton,
      pow_succ]
    nlinarith

theorem two_pow_160_eq : (2 : Nat) ^ 160 = 256 ^ 20 := by
  norm_num


/-! ### Helper lemmas about the sorted dictionaries -/

theorem byteListLt_irrefl (a : List Nat) : byteListLt a a = false := by
  induction a with
  | nil => rfl
  | cons x xs ih => simp [byteListLt, ih]

theorem byteListLt_asymm (a b : List Nat) (h : byteListLt a b = true) :
    byteListLt b a = false := by
  induction a generalizing b with
  | nil =>
    cases b with
    | nil => simp [byteListLt] at h
    | cons y ys => simp [byteListLt]
  | cons x xs ih =>
    cases b with
    | nil => simp [byteListLt] at h
    | cons y ys =>
      simp only [byteListLt] at h ⊢
      rcases Nat.lt_trichotomy x y with hxy | hxy | hxy
      · simp [hxy, Nat.lt_asymm hxy]
      · subst hxy
        simp only [Nat.lt_irrefl, if_false] at h ⊢
        exact ih ys h
      · simp [hxy, Nat.lt_asymm hxy] at h

theorem byteListLt_ne (a b : List Nat) (h : byteListLt a b = true) : a ≠ b := by
  intro heq
  subst heq
  rw [byteListLt_irrefl] at h
  exact Bool.false_ne_true h

theorem dictLookup_dictInsert_self (k : List Nat) (v : Bencode)
    (m : List (List Nat × Bencode)) :
    dictLookup k (dictInsert k v m) = some v := by
  induction m with
  | nil => simp [dictInsert, dictLookup]
  | cons kv rest ih =>
    obtain ⟨k2, v2⟩ := kv
    by_cases hk : k = k2
    · simp [dictInsert, hk, dictLookup]
    · by_cases hlt : byteListLt k k2
      · simp [dictInsert, hk, hlt, dictLookup]
      · simp [dictInsert, hk, hlt, dictLookup, ih]

theorem dictErase_dictInsert (k : List Nat) (v : Bencode)
    (m : List (List Nat × Bencode)) (h : k ∉ m.map Prod.fst) :
    dictErase k (dictInsert k v m) = m := by
  induction m with
  | nil => simp [dictInsert, dictErase]
  | cons kv rest ih =>
    obtain ⟨k2, v2⟩ := kv
    simp only [List.map_cons, List.mem_cons] at h
    push_neg at h
    obtain ⟨hne, hrest⟩ := h
    by_cases hlt : byteListLt k k2
    · simp [dictInsert, hne, hlt, dictErase]
    · simp [dictInsert, hne, hlt, dictErase, ih hrest]

theorem dictInsert_append_of_lt (k : List Nat) (v : Bencode)
    (m : List (List Nat × Bencode)) (h : ∀ kv ∈ m, byteListLt kv.1 k = true) :
    dictInsert k v m = m ++ [(k, v)] := by
  induction m with
  | nil => rfl
  | cons kv rest ih =>
    obtain ⟨k2, v2⟩ := kv
    have hlt : byteListLt k2 k = true := h (k2, v2) (by simp)
    have hne : k ≠ k2 := fun heq => byteListLt_ne k2 k hlt heq.symm
    have hnlt : ¬ byteListLt k k2 := by
      rw [byteListLt_asymm k2 k hlt]
      exact Bool.false_ne_true
    simp only [dictInsert, if_neg hne, if_neg hnlt, List.cons_append,
      List.cons.injEq, true_and]
    exact ih (fun kv hkv => h kv (by simp [hkv]))

/-- Mapping a payload dictionary entry to its bencode form. -/
def fieldEntry (kv : List Nat × List Nat) : List Nat × Bencode :=
  (kv.1, .byteString kv.2)

theorem foldl_dictInsert_sorted (d : PayloadDict)
    (hs : List.Pairwise (fun a b => byteListLt a.1 b.1 = true) d) :
    ∀ acc : List (List Nat × Bencode),
      (∀ a ∈ acc, ∀ b ∈ d, byteListLt a.1 b.1 = true) →
      d.foldl (fun m kv => dictInsert kv.1 (.byteString kv.2) m) acc
        = acc ++ d.map fieldEntry := by
  induction d with
  | nil => intro acc _; simp
  | cons kv rest ih =>
    intro acc hacc
    rw [List.foldl_cons]
    have hins : dictInsert kv.1 (.byteString kv.2) acc = acc ++ [fieldEntry kv] := by
      exact dictInsert_append_of_lt _ _ _ (fun a ha => hacc a ha kv (by simp))
    rw [hins]
    rw [List.pairwise_cons] at hs
    obtain ⟨hkv, hrest⟩ := hs
    rw [ih hrest (acc ++ [fieldEntry kv]) ?_]
    · simp
    · intro a ha b hb
      rw [List.mem_append] at ha
      rcases ha with ha | ha
      · exact hacc a ha b (by simp [hb])
      · simp only [List.mem_singleton] at ha
        subst ha
        exact hkv b hb


/-! ### Derived facts about the node codec -/

theorem nodeToBencode_v4 (id a b c d p : Nat) (hid : id < 2 ^ 160) :
    nodeToBencode ⟨id, .v4 a b c d p⟩
      = some (.byteString (idBytesLoop id 20 ++ [a, b, c, d, p / 256 % 256, p % 256])) := by
  unfold nodeToBencode
  rw [id_to_netbytes_eq, if_pos hid]
  simp [netaddr_to_netbytes]

theorem nodeFromBencode_isSome (v : List Nat) (h : v.length = 26) :
    ∃ n, nodeFromBencode (.byteString v) = some n := by
  have hd : (v.drop 20).length = 6 := by simp [h]
  simp only [nodeFromBencode]
  rw [if_pos h]
  unfold netaddr_from_netbytes
  rw [dif_pos hd]
  exact ⟨_, rfl⟩

theorem exists_six (l : List Nat) (h : l.length = 6) :
    ∃ b0 b1 b2 b3 b4 b5, l = [b0, b1, b2, b3, b4, b5] := by
  rcases l with _ | ⟨b0, l⟩
  · simp at h
  rcases l with _ | ⟨b1, l⟩
  · simp at h
  rcases l with _ | ⟨b2, l⟩
  · simp at h
  rcases l with _ | ⟨b3, l⟩
  · simp at h
  rcases l with _ | ⟨b4, l⟩
  · simp at h
  rcases l with _ | ⟨b5, l⟩
  · simp at h
  have hl : l = [] := by
    rw [← List.length_eq_zero]
    simp only [List.length_cons] at h
    omega
  subst hl
  exact ⟨b0, b1, b2, b3, b4, b5, rfl⟩

/-- C1: decoding the 26-byte compact encoding of an IPv4 node whose id is
below `2 ^ 160` yields the node back exactly, identifier, address octets and
port included. -/
theorem node_decode_encode_roundtrip (n : Node) (a b c d p : Nat)
    (haddr : n.address = .v4 a b c d p) (hid : n.id < 2 ^ 160)
    (hp : p < 2 ^ 16) :
    ∃ enc, nodeToBencode n = some enc ∧ nodeFromBencode enc = some n := by
  obtain ⟨id, addr⟩ := n
  simp only at haddr hid hp
  subst haddr
  refine ⟨_, nodeToBencode_v4 id a b c d p hid, ?_⟩
  have hlen20 : (idBytesLoop id 20).length = 20 := idBytesLoop_length id 20
  have hlen : (idBytesLoop id 20 ++ [a, b, c, d, p / 256 % 256, p % 256]).length = 26 := by
    simp [hlen20]
  simp only [nodeFromBencode]
  rw [if_pos hlen]
  rw [List.drop_left' hlen20, List.take_left' hlen20]
  have hport : p / 256 % 256 * 256 + p % 256 = p := by omega
  simp only [netaddr_from_netbytes, List.length_cons, List.length_nil,
    dif_pos, List.get]
  rw [id_from_netbytes_eq, beVal_idBytesLoop_of_lt id 20 (by
    rw [← two_pow_160_eq]; exact hid)]
  simp [hport]

/-- C1 witness at the node with id 42 and address 127.0.0.1:8008. -/
theorem node_decode_encode_roundtrip_witness :
    ∃ enc, nodeToBencode ⟨42, .v4 127 0 0 1 8008⟩ = some enc ∧
      nodeFromBencode enc = some ⟨42, .v4 127 0 0 1 8008⟩ :=
  node_decode_encode_roundtrip ⟨42, .v4 127 0 0 1 8008⟩ 127 0 0 1 8008 rfl
    (by norm_num) (by norm_num)

theorem netaddr_from_netbytes_explicit (b0 b1 b2 b3 b4 b5 : Nat) :
    netaddr_from_netbytes [b0, b1, b2, b3, b4, b5]
      = some (.v4 b0 b1 b2 b3 (b4 * 256 + b5)) := rfl

/-- C4: node decoding succeeds exactly on byte strings of 26 bytes (first
20 become the id, last 6 the address) and returns no match, without any
fault, on byte strings of every other length and on every other bencode
value kind. -/
theorem nodeFromBencode_exactly_26 :
    (∀ v : List Nat, v.length = 26 → ∃ n, nodeFromBencode (.byteString v) = some n) ∧
    (∀ v : List Nat, v.length ≠ 26 → nodeFromBencode (.byteString v) = none) ∧
    (∀ i : Int, nodeFromBencode (.number i) = none) ∧
    (∀ l : List Bencode, nodeFromBencode (.list l) = none) ∧
    (∀ d : List (List Nat × Bencode), nodeFromBencode (.dict d) = none) := by
  refine ⟨nodeFromBencode_isSome, fun v hv => ?_, fun i => rfl, fun l => rfl,
    fun d => rfl⟩
  simp only [nodeFromBencode]
  rw [if_neg hv]

/-- C4 witness: a 26-byte string decodes, a 1-byte string and an integer do
not. -/
theorem nodeFromBencode_exactly_26_witness :
    (∃ n, nodeFromBencode (.byteString (List.replicate 26 0)) = some n) ∧
    nodeFromBencode (.byteString [1, 2, 3]) = none ∧
    nodeFromBencode (.number 42) = none :=
  ⟨nodeFromBencode_exactly_26.1 (List.replicate 26 0) (by simp),
    nodeFromBencode_exactly_26.2.1 [1, 2, 3] (by simp),
    nodeFromBencode_exactly_26.2.2.1 42⟩

/-- C5: the node encoding is exactly the 20 identifier bytes followed by the
6 address bytes (octets then big-endian port), and the node with id 42 at
127.0.0.1:8008 encodes to packed 42 followed by 127, 0, 0, 1, 0x1F, 0x48. -/
theorem encodeNode_is_id_concat_addr :
    (∀ id a b c d p : Nat, id < 2 ^ 160 → p < 2 ^ 16 →
      ∃ idb ab, id_to_netbytes id = some idb ∧
        netaddr_to_netbytes (.v4 a b c d p) = some ab ∧
        nodeToBencode ⟨id, .v4 a b c d p⟩ = some (.byteString (idb ++ ab)) ∧
        idb.length = 20 ∧ ab = [a, b, c, d, p / 256, p % 256]) ∧
    nodeToBencode ⟨42, .v4 127 0 0 1 8008⟩
      = some (.byteString (List.replicate 19 0 ++ [42, 127, 0, 0, 1, 31, 72])) := by
  constructor
  · intro id a b c d p hid hp
    refine ⟨idBytesLoop id 20, [a, b, c, d, p / 256 % 256, p % 256], ?_, rfl,
      nodeToBencode_v4 id a b c d p hid, idBytesLoop_length id 20, ?_⟩
    · rw [id_to_netbytes_eq, if_pos hid]
    · have : p / 256 % 256 = p / 256 := by omega
      rw [this]
  · rw [nodeToBencode_v4 42 127 0 0 1 8008 (by norm_num)]
    norm_num
    decide

/-- C5 witness instantiating the general conjunct at id 42, 127.0.0.1:8008. -/
theorem encodeNode_is_id_concat_addr_witness :
    ∃ idb ab, id_to_netbytes 42 = some idb ∧
      netaddr_to_netbytes (.v4 127 0 0 1 8008) = some ab ∧
      nodeToBencode ⟨42, .v4 127 0 0 1 8008⟩ = some (.byteString (idb ++ ab)) ∧
      idb.length = 20 ∧ ab = [127, 0, 0, 1, 8008 / 256, 8008 % 256] :=
  encodeNode_is_id_concat_addr.1 42 127 0 0 1 8008 (by norm_num) (by norm_num)

/-- C6: for ids below `2 ^ 160` the identifier packer produces exactly 20
bytes, each below 256, whose big-endian base-256 value is the id (so the
bytes are the big-endian representation, zero-padded on the left); id 0
gives 20 zero bytes and id `2 ^ 160 - 1` gives 20 bytes of 0xFF. -/
theorem id_to_netbytes_bigendian_20 :
    (∀ id : Nat, id < 2 ^ 160 →
      ∃ l, id_to_netbytes id = some l ∧ l.length = 20 ∧
        (∀ b ∈ l, b < 256) ∧ beVal l = id) ∧
    id_to_netbytes 0 = some (List.replicate 20 0) ∧
    id_to_netbytes (2 ^ 160 - 1) = some (List.replicate 20 255) := by
  refine ⟨fun id hid => ⟨idBytesLoop id 20, ?_, idBytesLoop_length id 20,
    idBytesLoop_mem_lt id 20, beVal_idBytesLoop_of_lt id 20 (by
      rw [← two_pow_160_eq]; exact hid)⟩, ?_, ?_⟩
  · rw [id_to_netbytes_eq, if_pos hid]
  · rw [id_to_netbytes_eq, if_pos (Nat.two_pow_pos 160)]
    decide
  · rw [id_to_netbytes_eq, if_pos (by norm_num)]
    norm_num
    decide

/-- C6 witness instantiating the general conjunct at id 42. -/
theorem id_to_netbytes_bigendian_20_witness :
    ∃ l, id_to_netbytes 42 = some l ∧ l.length = 20 ∧
      (∀ b ∈ l, b < 256) ∧ beVal l = 42 :=
  id_to_netbytes_bigendian_20.1 42 (by norm_num)

/-- C8: the identifier packer succeeds, with every byte an unsigned 8-bit
value, whenever the id fits in 160 bits, and aborts (modelled as `none`)
whenever the id needs more than 160 bits. -/
theorem id_to_netbytes_contract :
    (∀ id : Nat, id < 2 ^ 160 →
      ∃ l, id_to_netbytes id = some l ∧ ∀ b ∈ l, b < 256) ∧
    (∀ id : Nat, 2 ^ 160 ≤ id → id_to_netbytes id = none) := by
  constructor
  · intro id hid
    refine ⟨idBytesLoop id 20, ?_, idBytesLoop_mem_lt id 20⟩
    rw [id_to_netbytes_eq, if_pos hid]
  · intro id hid
    rw [id_to_netbytes_eq, if_neg (by omega)]

/-- C8 witness: success below the bound, failure at `2 ^ 160`. -/
theorem id_to_netbytes_contract_witness :
    (∃ l, id_to_netbytes 5 = some l ∧ ∀ b ∈ l, b < 256) ∧
    id_to_netbytes (2 ^ 160) = none :=
  ⟨id_to_netbytes_contract.1 5 (by norm_num),
    id_to_netbytes_contract.2 (2 ^ 160) (le_refl _)⟩

/-- C9: the address packer fails explicitly (the IPv6 arm is a panic,
modelled as `none`) on every IPv6 address, and the node encoder therefore
produces nothing for an IPv6 node instead of truncating. -/
theorem netaddr_to_netbytes_ipv6_fails (segments : List Nat) (port : Nat) :
    netaddr_to_netbytes (.v6 segments port) = none ∧
    ∀ id : Nat, nodeToBencode ⟨id, .v6 segments port⟩ = none := by
  refine ⟨rfl, fun id => ?_⟩
  unfold nodeToBencode
  cases id_to_netbytes id <;> rfl

/-- C10: every 26-byte wire value decodes to a node whose id is below
`2 ^ 160` and whose address is IPv4, and re-encoding that node reproduces
the identical 26 bytes, so re-encoding cannot hit the id-size assertion or
the IPv6 panic. -/
theorem wire_decode_encode_roundtrip (v : List Nat) (hlen : v.length = 26)
    (hbytes : ∀ b ∈ v, b < 256) :
    ∃ n, nodeFromBencode (.byteString v) = some n ∧
      n.id < 2 ^ 160 ∧ (∃ a b c d p, n.address = .v4 a b c d p) ∧
      nodeToBencode n = some (.byteString v) := by
  have htake : (v.take 20).length = 20 := by simp [hlen]
  have hdroplen : (v.drop 20).length = 6 := by simp [hlen]
  obtain ⟨b0, b1, b2, b3, b4, b5, hdrop⟩ := exists_six (v.drop 20) hdroplen
  have hid : id_from_netbytes (v.take 20) < 2 ^ 160 := by
    rw [id_from_netbytes_eq, two_pow_160_eq]
    have := beVal_lt (v.take 20) (fun b hb => hbytes b (List.take_subset 20 v hb))
    rwa [htake] at this
  have hb4 : b4 < 256 := hbytes b4 (List.drop_subset 20 v (by rw [hdrop]; simp))
  have hb5 : b5 < 256 := hbytes b5 (List.drop_subset 20 v (by rw [hdrop]; simp))
  refine ⟨⟨id_from_netbytes (v.take 20), .v4 b0 b1 b2 b3 (b4 * 256 + b5)⟩,
    ?_, hid, ⟨b0, b1, b2, b3, b4 * 256 + b5, rfl⟩, ?_⟩
  · simp only [nodeFromBencode]
    rw [if_pos hlen, hdrop, netaddr_from_netbytes_explicit]
  · rw [nodeToBencode_v4 _ b0 b1 b2 b3 (b4 * 256 + b5) hid]
    have hp1 : (b4 * 256 + b5) / 256 % 256 = b4 := by omega
    have hp2 : (b4 * 256 + b5) % 256 = b5 := by omega
    rw [hp1, hp2]
    have : idBytesLoop (id_from_netbytes (v.take 20)) 20 = v.take 20 := by
      rw [id_from_netbytes_eq]
      have h2 := idBytesLoop_beVal (v.take 20)
        (fun b hb => hbytes b (List.take_subset 20 v hb))
      rwa [htake] at h2
    rw [this, ← hdrop, List.take_append_drop]

/-- C10 witness at the 26-byte string of 19 zeros, 42, 127.0.0.1, port 80. -/
theorem wire_decode_encode_roundtrip_witness :
    ∃ n, nodeFromBencode
        (.byteString (List.replicate 19 0 ++ [42, 127, 0, 0, 1, 0, 80])) = some n ∧
      n.id < 2 ^ 160 ∧ (∃ a b c d p, n.address = .v4 a b c d p) ∧
      nodeToBencode n
        = some (.byteString (List.replicate 19 0 ++ [42, 127, 0, 0, 1, 0, 80])) :=
  wire_decode_encode_roundtrip (List.replicate 19 0 ++ [42, 127, 0, 0, 1, 0, 80])
    (by simp) (by decide)

/-- C3: evaluation of the encoder on a concrete package: the transaction id
bytes are echoed byte-for-byte, but under the two-byte key `"tt"`, not under
the single-character key `"t"` required by the claim (and by BEP 0005, which
the module documents itself as implementing): looking up `"t"` finds
nothing. -/
theorem transaction_id_under_key_tt :
    ∃ outer, packageToBencode
        ⟨[1, 2, 254, 255], .error 10 [101, 114, 114, 111, 114],
          ⟨42, .v4 127 0 0 1 8008⟩⟩ = some (.dict outer) ∧
      dictLookup keyT outer = none ∧
      dictLookup keyTT outer = some (.byteString [1, 2, 254, 255]) := by
  refine ⟨_, rfl, ?_, ?_⟩ <;> rfl

/-! ### The shapes the package encoder produces -/

theorem packageToBencode_query (tid : List Nat) (flds : PayloadDict)
    (sender : Node) (nb : Bencode) (henc : nodeToBencode sender = some nb) :
    packageToBencode ⟨tid, .query flds, sender⟩
      = some (.dict (dictInsert keyQ
          (.dict (dictInsert keyId nb
            (flds.foldl (fun m kv => dictInsert kv.1 (.byteString kv.2) m) [])))
          (dictInsert keyY (.byteString keyQ)
            (dictInsert keyTT (.byteString tid) [])))) := by
  unfold packageToBencode payload_dict_to_bencode
  rw [henc]
  rfl

theorem packageToBencode_response (tid : List Nat) (flds : PayloadDict)
    (sender : Node) (nb : Bencode) (henc : nodeToBencode sender = some nb) :
    packageToBencode ⟨tid, .response flds, sender⟩
      = some (.dict (dictInsert keyR
          (.dict (dictInsert keyId nb
            (flds.foldl (fun m kv => dictInsert kv.1 (.byteString kv.2) m) [])))
          (dictInsert keyY (.byteString keyR)
            (dictInsert keyTT (.byteString tid) [])))) := by
  unfold packageToBencode payload_dict_to_bencode
  rw [henc]
  rfl

theorem packageToBencode_error (tid : List Nat) (code : Int) (msg : List Nat)
    (sender : Node) :
    packageToBencode ⟨tid, .error code msg, sender⟩
      = some (.dict (dictInsert keyE (.list [.number code, .byteString msg])
          (dictInsert keyY (.byteString keyE)
            (dictInsert keyTT (.byteString tid) [])))) := rfl

/-- C7: for every Query and every Response package whose sender is an
encodable IPv4 node — whatever the caller's field map holds, including an
existing `"id"` entry — the serialized payload dictionary maps `"id"` to the
sender's compact encoding. -/
theorem payload_contains_sender_id (tid : List Nat) (flds : PayloadDict)
    (sender : Node) (hid : sender.id < 2 ^ 160) (a b c d p : Nat)
    (haddr : sender.address = .v4 a b c d p) :
    ∃ nb innerQ innerR,
      nodeToBencode sender = some nb ∧
      (∃ outer, packageToBencode ⟨tid, .query flds, sender⟩ = some (.dict outer) ∧
        dictLookup keyQ outer = some (.dict innerQ)) ∧
      dictLookup keyId innerQ = some nb ∧
      (∃ outer, packageToBencode ⟨tid, .response flds, sender⟩ = some (.dict outer) ∧
        dictLookup keyR outer = some (.dict innerR)) ∧
      dictLookup keyId innerR = some nb := by
  obtain ⟨sid, saddr⟩ := sender
  simp only at hid haddr
  subst haddr
  have henc := nodeToBencode_v4 sid a b c d p hid
  set nb := Bencode.byteString
    (idBytesLoop sid 20 ++ [a, b, c, d, p / 256 % 256, p % 256]) with hnb
  set base := flds.foldl (fun m kv => dictInsert kv.1 (.byteString kv.2) m)
    ([] : List (List Nat × Bencode)) with hbase
  refine ⟨nb, dictInsert keyId nb base, dictInsert keyId nb base, henc,
    ⟨_, packageToBencode_query tid flds _ nb henc, ?_⟩,
    dictLookup_dictInsert_self keyId nb base,
    ⟨_, packageToBencode_response tid flds _ nb henc, ?_⟩,
    dictLookup_dictInsert_self keyId nb base⟩
  · simp [dictInsert, dictLookup, keyQ, keyTT, keyY, byteListLt]
  · simp [dictInsert, dictLookup, keyR, keyTT, keyY, byteListLt]

/-- C7 witness at a query and response with an empty field map and the
sender with id 42 at 127.0.0.1:8008. -/
theorem payload_contains_sender_id_witness :
    ∃ nb innerQ innerR,
      nodeToBencode ⟨42, .v4 127 0 0 1 8008⟩ = some nb ∧
      (∃ outer, packageToBencode ⟨[0], .query [], ⟨42, .v4 127 0 0 1 8008⟩⟩
          = some (.dict outer) ∧
        dictLookup keyQ outer = some (.dict innerQ)) ∧
      dictLookup keyId innerQ = some nb ∧
      (∃ outer, packageToBencode ⟨[0], .response [], ⟨42, .v4 127 0 0 1 8008⟩⟩
          = some (.dict outer) ∧
        dictLookup keyR outer = some (.dict innerR)) ∧
      dictLookup keyId innerR = some nb :=
  payload_contains_sender_id [0] [] ⟨42, .v4 127 0 0 1 8008⟩ (by norm_num)
    127 0 0 1 8008 rfl

/-! ### Validity of packages for encoding, and the package round trip -/

/-- A node the encoder can serialize: id below `2 ^ 160` (the 160-bit
assertion) and an IPv4 address (the IPv6 arm panics). -/
def senderEncodable (n : Node) : Prop :=
  n.id < 2 ^ 160 ∧ ∃ a b c d p, n.address = .v4 a b c d p

/-- A well-formed caller field map: strictly sorted keys (the invariant of
the `TreeMap` the Rust `PayloadDict` is) and no use of the reserved key
`"id"`. -/
def fieldsWellFormed (d : PayloadDict) : Prop :=
  List.Pairwise (fun a b => byteListLt a.1 b.1 = true) d ∧ keyId ∉ d.map Prod.fst

/-- A valid package: Query and Response need an encodable sender and a
well-formed field map; an Error payload never touches the sender. -/
def packageValid (p : Package) : Prop :=
  match p.payload with
  | .query d => senderEncodable p.sender ∧ fieldsWellFormed d
  | .response d => senderEncodable p.sender ∧ fieldsWellFormed d
  | .error _ _ => True

theorem payloadFields_map (d : PayloadDict) :
    payloadFieldsFromBencode (d.map fieldEntry) = some d := by
  induction d with
  | nil => rfl
  | cons kv rest ih =>
    obtain ⟨k, v⟩ := kv
    simp [fieldEntry, payloadFieldsFromBencode, ih]

theorem fieldEntry_fst_map (d : PayloadDict) :
    (d.map fieldEntry).map Prod.fst = d.map Prod.fst := by
  rw [List.map_map]
  rfl

theorem outer_eval (tag : List Nat) (pl : Bencode) (tid : List Nat)
    (hne : tag ≠ keyTT) (hlt : byteListLt tag keyTT = true) :
    dictInsert tag pl (dictInsert keyY (.byteString tag)
      (dictInsert keyTT (.byteString tid) []))
      = [(tag, pl), (keyTT, .byteString tid), (keyY, .byteString tag)] := by
  have e1 : keyY ≠ keyTT := by decide
  have e2 : byteListLt keyY keyTT = false := by decide
  simp [dictInsert, e1, e2, hne, hlt]

theorem dictLookup_outer_three (tag : List Nat) (pl : Bencode) (tid : List Nat)
    (h1 : keyTT ≠ tag) (h2 : keyY ≠ tag) :
    dictLookup keyTT [(tag, pl), (keyTT, .byteString tid), (keyY, .byteString tag)]
        = some (.byteString tid) ∧
    dictLookup keyY [(tag, pl), (keyTT, .byteString tid), (keyY, .byteString tag)]
        = some (.byteString tag) ∧
    dictLookup tag [(tag, pl), (keyTT, .byteString tid), (keyY, .byteString tag)]
        = some pl := by
  have e1 : keyY ≠ keyTT := by decide
  simp [dictLookup, h1, h2, e1]

/-- C2: for every valid package (encodable sender for Query/Response, field
map sorted and free of the reserved key), encoding succeeds and the
spec-modelled decode — the symmetric counterpart of the encoder — returns
exactly the original transaction id and the original payload, kind and
field contents included. -/
theorem package_decode_encode_roundtrip (p : Package) (hp : packageValid p) :
    ∃ enc, packageToBencode p = some enc ∧
      packageFromBencode enc = some (p.transaction_id, p.payload) := by
  obtain ⟨tid, payload, sender⟩ := p
  cases payload with
  | error code msg =>
    refine ⟨_, packageToBencode_error tid code msg sender, ?_⟩
    rw [outer_eval keyE _ tid (by decide) (by decide)]
    obtain ⟨l1, l2, l3⟩ :=
      dictLookup_outer_three keyE (.list [.number code, .byteString msg]) tid
        (by decide) (by decide)
    simp only [packageFromBencode, l1, l2, l3]
    have hq : keyE ≠ keyQ := by decide
    have hr : keyE ≠ keyR := by decide
    simp [hq, hr]
  | query flds =>
    obtain ⟨⟨hid, a, b, c, d, pt, haddr⟩, hsort, hnotin⟩ := hp
    obtain ⟨sid, saddr⟩ := sender
    simp only at hid haddr
    subst haddr
    have henc := nodeToBencode_v4 sid a b c d pt hid
    set nb := Bencode.byteString
      (idBytesLoop sid 20 ++ [a, b, c, d, pt / 256 % 256, pt % 256]) with hnb
    set base := flds.foldl (fun m kv => dictInsert kv.1 (.byteString kv.2) m)
      ([] : List (List Nat × Bencode)) with hbase
    refine ⟨_, packageToBencode_query tid flds _ nb henc, ?_⟩
    rw [outer_eval keyQ _ tid (by decide) (by decide)]
    obtain ⟨l1, l2, l3⟩ :=
      dictLookup_outer_three keyQ (.dict (dictInsert keyId nb base)) tid
        (by decide) (by decide)
    simp only [packageFromBencode, l1, l2, l3, if_true]
    have hlen26 : (idBytesLoop sid 20
        ++ [a, b, c, d, pt / 256 % 256, pt % 256]).length = 26 := by
      simp [idBytesLoop_length]
    obtain ⟨nd, hnd⟩ := nodeFromBencode_isSome _ hlen26
    have hbasemap : base = flds.map fieldEntry := by
      rw [hbase]
      exact foldl_dictInsert_sorted flds hsort [] (by simp)
    simp only [payloadQRFromBencode, l3, dictLookup_dictInsert_self, hnb, hnd,
      hbasemap]
    rw [dictErase_dictInsert keyId _ (flds.map fieldEntry)
      (by rw [fieldEntry_fst_map]; exact hnotin), payloadFields_map]
    rfl
  | response flds =>
    obtain ⟨⟨hid, a, b, c, d, pt, haddr⟩, hsort, hnotin⟩ := hp
    obtain ⟨sid, saddr⟩ := sender
    simp only at hid haddr
    subst haddr
    have henc := nodeToBencode_v4 sid a b c d pt hid
    set nb := Bencode.byteString
      (idBytesLoop sid 20 ++ [a, b, c, d, pt / 256 % 256, pt % 256]) with hnb
    set base := flds.foldl (fun m kv => dictInsert kv.1 (.byteString kv.2) m)
      ([] : List (List Nat × Bencode)) with hbase
    refine ⟨_, packageToBencode_response tid flds _ nb henc, ?_⟩
    rw [outer_eval keyR _ tid (by decide) (by decide)]
    obtain ⟨l1, l2, l3⟩ :=
      dictLookup_outer_three keyR (.dict (dictInsert keyId nb base)) tid
        (by decide) (by decide)
    simp only [packageFromBencode, l1, l2, l3, if_true]
    have hlen26 : (idBytesLoop sid 20
        ++ [a, b, c, d, pt / 256 % 256, pt % 256]).length = 26 := by
      simp [idBytesLoop_length]
    obtain ⟨nd, hnd⟩ := nodeFromBencode_isSome _ hlen26
    have hbasemap : base = flds.map fieldEntry := by
      rw [hbase]
      exact foldl_dictInsert_sorted flds hsort [] (by simp)
    rw [if_neg (show keyR ≠ keyQ by decide)]
    simp only [payloadQRFromBencode, l3, dictLookup_dictInsert_self, hnb, hnd,
      hbasemap]
    rw [dictErase_dictInsert keyId _ (flds.map fieldEntry)
      (by rw [fieldEntry_fst_map]; exact hnotin), payloadFields_map]
    rfl

/-- C2 witness at a query package with one field, sender id 42 at
127.0.0.1:8008. -/
theorem package_decode_encode_roundtrip_witness :
    ∃ enc, packageToBencode
        ⟨[1, 2, 254, 255], .query [([97], [7, 8])], ⟨42, .v4 127 0 0 1 8008⟩⟩
        = some enc ∧
      packageFromBencode enc
        = some ([1, 2, 254, 255], .query [([97], [7, 8])]) :=
  package_decode_encode_roundtrip
    ⟨[1, 2, 254, 255], .query [([97], [7, 8])], ⟨42, .v4 127 0 0 1 8008⟩⟩
    ⟨⟨by norm_num, 127, 0, 0, 1, 8008, rfl⟩, by simp [fieldsWellFormed], by decide⟩

end RustDht
